import Mathlib

/-!
Verification of the alignment-resolution and pileup/consensus engine of
Polypolish (src/polypolish, src/scripts, with near-duplicate variants in
src/poligner, src/hyalign, src/maskimap).  The definitions below are a
shallow embedding of the Python source: strings become `List Char`,
Python dicts preserving insertion order become association lists, Python
floats become exact rationals (the operations involved — division and
multiplication by positive constants, ceiling — are monotone in IEEE
arithmetic exactly as they are over ℚ), and fallible code (IndexError,
assert, sys.exit) becomes `Option`/`Except`.
-/

namespace Polypolish

/-! ## CIGAR parsing (src/polypolish/alignment.py)

The source parses CIGAR strings with `re.findall(r'\d+[MIDNSHP=X]', cigar)`:
a maximal run of digits immediately followed by an operation letter yields
one `(length, op)` pair; any other character is skipped and breaks the
current digit run. -/

def isCigarOpChar (c : Char) : Bool :=
  c == 'M' || c == 'I' || c == 'D' || c == 'N' || c == 'S' || c == 'H' ||
  c == 'P' || c == '=' || c == 'X'

/-- One step of the regex scan of `re.findall(r'\d+[MIDNSHP=X]', ...)`:
`acc` is the digit run read so far (`none` when no run is open). -/
def findallCigarAux : List Char → Option Nat → List (Nat × Char)
  | [], _ => []
  | c :: rest, acc =>
    if c.isDigit then
      findallCigarAux rest (some ((acc.getD 0) * 10 + (c.toNat - 48)))
    else if isCigarOpChar c then
      match acc with
      | some n => (n, c) :: findallCigarAux rest none
      | none => findallCigarAux rest none
    else
      findallCigarAux rest none

/-- The parsed CIGAR, `re.findall(r'\d+[MIDNSHP=X]', cigar)`, as a list of
(length, op) pairs. -/
def findallCigar (cigar : List Char) : List (Nat × Char) :=
  findallCigarAux cigar none

/-- Reference-consuming CIGAR operations: the letters whose sizes
`get_ref_end` (src/polypolish/alignment.py:166-174) adds up. -/
def consumesRef (c : Char) : Bool :=
  c == 'M' || c == 'D' || c == 'N' || c == '=' || c == 'X'

/-- Embedding of `get_ref_end` (src/polypolish/alignment.py:166-174): fold
over the parsed CIGAR, adding the size of every reference-consuming
operation to the start coordinate. -/
def get_ref_end (ref_start : Nat) (cigar : List Char) : Nat :=
  (findallCigar cigar).foldl
    (fun e p => if consumesRef p.2 then e + p.1 else e) ref_start

/-- Sum of the lengths of the reference-consuming (M/D/N/=/X) operations
of a parsed CIGAR. -/
def refConsumedSum (ps : List (Nat × Char)) : Nat :=
  ((ps.filter (fun p => consumesRef p.2)).map (fun p => p.1)).sum

/-- Sum of the lengths of the read-consuming (M/I) operations of a parsed
CIGAR: how many read bases the CIGAR consumes. -/
def readConsumedSum (ps : List (Nat × Char)) : Nat :=
  ((ps.filter (fun p => p.2 == 'M' || p.2 == 'I')).map (fun p => p.1)).sum

/-- Expansion of a parsed CIGAR into one letter per base, as a plain list
(the `''.join` of `get_expanded_cigar`,
src/polypolish/alignment.py:177-185). -/
def expandedOf (ps : List (Nat × Char)) : List Char :=
  (ps.map (fun p => List.replicate p.1 p.2)).flatten

/-- How many read bases an expanded CIGAR consumes (its M and I letters). -/
def countMI (exp : List Char) : Nat :=
  (exp.filter (fun c => c == 'M' || c == 'I')).length

/-- How many base groups the expanded-CIGAR walk emits (its M and D
letters: a Match and a Deletion each emit one group, an Insertion appends
to the previous group). -/
def countMD (exp : List Char) : Nat :=
  (exp.filter (fun c => c == 'M' || c == 'D')).length

/-- The body of `get_expanded_cigar` on the parsed CIGAR: every operation
must be M, D or I (`assert letter == 'M' or ...`; `none` models the
assertion failure on any other letter). -/
def expandCigarParts : List (Nat × Char) → Option (List Char)
  | [] => some []
  | (n, c) :: rest =>
    if c == 'M' || c == 'D' || c == 'I' then
      (expandCigarParts rest).map (fun e => List.replicate n c ++ e)
    else none

/-- Embedding of `get_expanded_cigar` (src/polypolish/alignment.py:177-185). -/
def get_expanded_cigar (cigar : List Char) : Option (List Char) :=
  expandCigarParts (findallCigar cigar)

/-- The loop of `get_read_bases_for_each_target_base`
(src/polypolish/alignment.py:146-163) over the expanded CIGAR. `reads` is
the rest of the read sequence (the source's index `i` points at its
head); `acc` is the reversed list of emitted base groups, so the source's
`read_bases[-1]` is its head.  `none` models an exception: IndexError on
`self.read_seq[i]` past the end, IndexError on `read_bases[-1]` when no
group has been emitted yet, the trailing `assert i == len(self.read_seq)`,
or the defensive `assert False` on a letter other than M/I/D. -/
def readBasesAux : List Char → List Char → List (List Char) → Option (List (List Char))
  | [], reads, acc => if reads.isEmpty then some acc.reverse else none
  | c :: cs, reads, acc =>
    if c == 'M' then
      match reads with
      | [] => none
      | r :: rs => readBasesAux cs rs ([r] :: acc)
    else if c == 'I' then
      match reads, acc with
      | r :: rs, g :: gs => readBasesAux cs rs ((g ++ [r]) :: gs)
      | _, _ => none
    else if c == 'D' then
      readBasesAux cs reads (['-'] :: acc)
    else none

/-- Embedding of `Alignment.get_read_bases_for_each_target_base`
(src/polypolish/alignment.py:146-163): expand the CIGAR, walk it over the
read sequence, and require (`assert`) that the emitted group count equals
the length of the reference slice. -/
def get_read_bases_for_each_target_base (cigar read_seq ref_seq : List Char) :
    Option (List (List Char)) :=
  match get_expanded_cigar cigar with
  | none => none
  | some exp =>
    match readBasesAux exp read_seq [] with
    | none => none
    | some groups =>
      if groups.length == ref_seq.length then some groups else none

/-! ## Pileup construction (src/polypolish/polish_targets.py) -/

/-- The homopolymer-tail trimming of `get_pileup`
(src/polypolish/polish_targets.py:146-149):

    last_base = aligned_bases[-1]
    while aligned_bases[-1] == last_base:
        aligned_bases.pop()
    aligned_bases.pop()

Working on the reversed list, `aligned_bases[-1]` is the head; the while
loop is a `dropWhile`; `none` models the IndexError of `aligned_bases[-1]`
on an empty list (either initially or after the loop has popped every
element). -/
def trimAlignedBases {α : Type} [DecidableEq α] (l : List α) : Option (List α) :=
  match l.reverse with
  | [] => none
  | last :: _ =>
    match l.reverse.dropWhile (fun x => x == last) with
    | [] => none
    | _ :: rest => some rest.reverse

/-- The pileup entries one alignment contributes
(src/polypolish/polish_targets.py:146-156): its base groups after
homopolymer-tail trimming, enumerated from the alignment's reference
start (`for i, bases in enumerate(aligned_bases): pileup[a.ref_start + i]...`). -/
def pileupEntries (ref_start : Nat) (aligned_bases : List (List Char)) :
    Option (List (Nat × List Char)) :=
  (trimAlignedBases aligned_bases).map
    (fun l => l.enum.map (fun p => (ref_start + p.1, p.2)))

/-! ## Consensus (src/polypolish/polish_targets.py:51-82) -/

inductive PolishStatus
  | no_reads
  | kept
  | changed
  | multiple
  deriving DecidableEq

/-- The per-position consensus decision of `polish_target_sequence`
(src/polypolish/polish_targets.py:52-82): when the position's fractional
depth is positive, a base group is valid iff its count is at least
`target_count = 0.5 * depth`; zero valid groups keep the reference base
(`no_reads`), exactly one valid group is adopted (`kept` or `changed`),
several valid groups keep the reference base (`multiple`).  Counts follow
the pileup dict's insertion order. -/
def consensusPosition (read_base_counts : List (List Char × Nat)) (depth : ℚ)
    (ref_base : List Char) : List Char × PolishStatus :=
  let valid_bases :=
    if 0 < depth then
      (read_base_counts.filter
        (fun bc => (1 / 2 : ℚ) * depth ≤ (bc.2 : ℚ))).map (fun bc => bc.1)
    else []
  match valid_bases with
  | [] => (ref_base, PolishStatus.no_reads)
  | [b] => (b, if b = ref_base then PolishStatus.kept else PolishStatus.changed)
  | _ => (ref_base, PolishStatus.multiple)

/-- The consensus rule as the claim and spec state it, written from the
spec's words for comparison with `consensusPosition` (the rule the source
implements): `threshold = max(min_depth, min_fraction × depth)`, a group
is valid iff its count meets or exceeds the threshold, and the 0/1/many
adoption rule is as in the source. -/
def consensusPositionSpec (min_depth : Nat) (min_fraction : ℚ)
    (read_base_counts : List (List Char × Nat)) (depth : ℚ)
    (ref_base : List Char) : List Char × PolishStatus :=
  let threshold : ℚ := max (min_depth : ℚ) (min_fraction * depth)
  let valid_bases :=
    if 0 < depth then
      (read_base_counts.filter
        (fun bc => threshold ≤ (bc.2 : ℚ))).map (fun bc => bc.1)
    else []
  match valid_bases with
  | [] => (ref_base, PolishStatus.no_reads)
  | [b] => (b, if b = ref_base then PolishStatus.kept else PolishStatus.changed)
  | _ => (ref_base, PolishStatus.multiple)

/-! ## Percentiles and the insert-size distribution
(src/scripts/polypolish_insert_filter.py:580-593,
src/polypolish/insert_size.py:76-88) -/

/-- Python list indexing: non-negative indexes from the front, negative
indexes from the back, IndexError (`none`) out of range. -/
def pyIndex {α : Type} (l : List α) (i : ℤ) : Option α :=
  if 0 ≤ i then l.get? i.toNat
  else if 0 ≤ i + l.length then l.get? (i + l.length).toNat
  else none

/-- Embedding of `get_percentile`
(src/scripts/polypolish_insert_filter.py:580-593), the nearest-rank
method on an already-sorted list: an empty list yields 0.0; otherwise
`rank = ceil(percentile / 100 * len)`, with rank 0 mapped to the first
element and rank r to element r − 1. -/
def get_percentile (sorted_list : List ℚ) (percentile : ℚ) : Option ℚ :=
  if sorted_list.isEmpty then some 0
  else
    let fraction := percentile / 100
    let rank : ℤ := ⌈fraction * sorted_list.length⌉
    if rank = 0 then pyIndex sorted_list 0
    else pyIndex sorted_list (rank - 1)

/-- The fixed percentile set of `get_distribution`
(src/polypolish/insert_size.py:84): 0.001, 0.01, 0.1, 1, 10, 50, 90, 99,
99.9, 99.99, 99.999. -/
def fixedPercentiles : List ℚ :=
  [1 / 1000, 1 / 100, 1 / 10, 1, 10, 50, 90, 99, 999 / 10, 9999 / 100,
    99999 / 1000]

/-- Modelled from the spec: `get_percentile_sorted` is imported by
src/polypolish/insert_size.py from the package's `misc` module, which is
absent from the sources.  Spec §4.3: "Compute each configured percentile
via nearest-rank selection on the sorted sample" — exactly the
nearest-rank method `get_percentile` of
src/scripts/polypolish_insert_filter.py implements for an already-sorted
list. -/
def get_percentile_sorted (sorted_list : List ℚ) (percentile : ℚ) : Option ℚ :=
  get_percentile sorted_list percentile

/-- Modelled from the spec: `get_distribution`
(src/polypolish/insert_size.py:76-88) sorts the sample and maps the
missing `get_percentile_sorted` over the fixed percentile set; per spec
§4.3 a zero-pair sample is "a fatal configuration error (there is no
distribution to build)", so the empty sample yields an error instead of a
distribution. -/
def get_distribution (insert_sizes : List ℚ) : Except String (List (ℚ × ℚ)) :=
  if insert_sizes.isEmpty then
    Except.error
      "Error: no read pairs available to determine the insert size distribution"
  else
    let s := insert_sizes.mergeSort (fun a b => a ≤ b)
    Except.ok (fixedPercentiles.map (fun p => (p, (get_percentile_sorted s p).getD 0)))

/-- The tail of `get_insert_size_thresholds`
(src/scripts/polypolish_insert_filter.py:181-189): sort the insert sizes
collected for the chosen orientation; an empty sample is a fatal error
(`quit_with_error`), otherwise the two configured percentiles become the
low and high thresholds. -/
def get_insert_size_thresholds (insert_sizes : List ℚ)
    (low_percentile high_percentile : ℚ) : Except String (ℚ × ℚ) :=
  let s := insert_sizes.mergeSort (fun a b => a ≤ b)
  if s.isEmpty then
    Except.error "Error: no read pairs available to determine insert size thresholds"
  else
    match get_percentile s low_percentile, get_percentile s high_percentile with
    | some lo, some hi => Except.ok (lo, hi)
    | _, _ => Except.error "IndexError"

/-! ## Alignment record fields and the quality filter
(src/polypolish/alignment.py:51-65, 104-124) -/

/-- Is an optional SAM field an edit-distance tag, `p.startswith('NM:i:')`? -/
def isNMTag (p : List Char) : Bool :=
  p.take 5 == "NM:i:".data

/-- Digits-only string to number (the core of Python `int`). -/
def digitsToNat : List Char → Option Nat
  | [] => none
  | cs =>
    if cs.all (fun c => c.isDigit) then
      some (cs.foldl (fun n c => n * 10 + (c.toNat - 48)) 0)
    else none

/-- Python `int(s)` on a tag value: optional sign then digits; `none`
models the ValueError on anything else. -/
def pyInt (s : List Char) : Option ℤ :=
  match s with
  | '-' :: rest => (digitsToNat rest).map (fun n => -(n : ℤ))
  | '+' :: rest => (digitsToNat rest).map (fun n => (n : ℤ))
  | _ => (digitsToNat s).map (fun n => (n : ℤ))

/-- The `self.mismatches` computation of `Alignment.__init__`
(src/polypolish/alignment.py:121-124): start at −1 and overwrite with
`int(p[5:])` for every optional field that starts with `NM:i:`. -/
def parse_mismatches (opt_fields : List (List Char)) : Option ℤ :=
  opt_fields.foldl
    (fun m p => if isNMTag p then pyInt (p.drop 5) else m) (some (-1))

/-- Embedding of `Alignment.starts_and_ends_with_match`
(src/polypolish/alignment.py:141-144); `none` models the IndexError on a
CIGAR with no parsable operation. -/
def starts_and_ends_with_match (cigar : List Char) : Option Bool :=
  match findallCigar cigar with
  | [] => none
  | p :: rest => some ((p.2 == 'M') && ((rest.getLastD p).2 == 'M'))

/-- The per-alignment keep predicate of `filter_alignments`
(src/polypolish/alignment.py:51-65): keep an alignment iff it starts and
ends with a Match operation and its mismatch count is at most
`max_errors`. -/
def filter_keeps (cigar : List Char) (mismatches max_errors : ℤ) : Option Bool :=
  (starts_and_ends_with_match cigar).map
    (fun b => b && decide (mismatches ≤ max_errors))

/-! ## Final alignment selection (src/polypolish/insert_size.py:136-206) -/

/-- The coordinates of one alignment that insert-size scoring reads. -/
structure SAlign where
  ref_start : ℤ
  ref_end : ℤ
  deriving DecidableEq, Inhabited

/-- An insert-size distribution: one observed value per fixed percentile
(the dict `get_distribution` builds). -/
structure Distribution where
  p0_001 : ℚ
  p0_01 : ℚ
  p0_1 : ℚ
  p1 : ℚ
  p10 : ℚ
  p50 : ℚ
  p90 : ℚ
  p99 : ℚ
  p99_9 : ℚ
  p99_99 : ℚ
  p99_999 : ℚ
  deriving DecidableEq, Inhabited

/-- Embedding of `get_insert_size` (src/polypolish/insert_size.py:61-73):
the running min/max updates over the four endpoint coordinates,
initialised at `alignment_1.ref_start`. -/
def get_insert_size (a1 a2 : SAlign) : ℤ :=
  let min0 := a1.ref_start
  let max0 := a1.ref_start
  let min1 := if a2.ref_start < min0 then a2.ref_start else min0
  let min2 := if a1.ref_end < min1 then a1.ref_end else min1
  let min3 := if a2.ref_end < min2 then a2.ref_end else min2
  let max1 := if a2.ref_start > max0 then a2.ref_start else max0
  let max2 := if a1.ref_end > max1 then a1.ref_end else max1
  let max3 := if a2.ref_end > max2 then a2.ref_end else max2
  max3 - min3

/-- Embedding of `score_insert_size`
(src/polypolish/insert_size.py:136-151): a discrete 0-5 score, 5 between
the 10th and 90th percentiles, descending through the wider bands, 0
outside all. -/
def score_insert_size (insert_size : ℤ) (d : Distribution) : Nat :=
  if d.p10 ≤ (insert_size : ℚ) ∧ (insert_size : ℚ) ≤ d.p90 then 5
  else if d.p1 ≤ (insert_size : ℚ) ∧ (insert_size : ℚ) ≤ d.p99 then 4
  else if d.p0_1 ≤ (insert_size : ℚ) ∧ (insert_size : ℚ) ≤ d.p99_9 then 3
  else if d.p0_01 ≤ (insert_size : ℚ) ∧ (insert_size : ℚ) ≤ d.p99_99 then 2
  else if d.p0_001 ≤ (insert_size : ℚ) ∧ (insert_size : ℚ) ≤ d.p99_999 then 1
  else 0

/-- Every mate-1/mate-2 alignment combination, in the nested-loop order of
the source. -/
def allPairs (l1 l2 : List SAlign) : List (SAlign × SAlign) :=
  l1.flatMap (fun a1 => l2.map (fun a2 => (a1, a2)))

def pairScore (d : Distribution) (p : SAlign × SAlign) : Nat :=
  score_insert_size (get_insert_size p.1 p.2) d

/-- The `max_score` computation of `final_alignment_selection`
(src/polypolish/insert_size.py:185-190): start at 0, scan every
combination, keep a score only when it beats the current maximum. -/
def maxPairScore (d : Distribution) (l1 l2 : List SAlign) : Nat :=
  (allPairs l1 l2).foldl
    (fun m p => if pairScore d p > m then pairScore d p else m) 0

/-- The `good_pairs` list of `final_alignment_selection`
(src/polypolish/insert_size.py:191-195): every combination whose score
equals the maximum. -/
def goodPairs (d : Distribution) (l1 l2 : List SAlign) : List (SAlign × SAlign) :=
  (allPairs l1 l2).filter (fun p => pairScore d p == maxPairScore d l1 l2)

/-- Model of `random.choice(seq)`: one draw `k` of the pseudorandom stream
picks index `k % seq.length`.  Every call site guarantees a non-empty
sequence, where this agrees with Python (whose `random.choice` raises on
an empty sequence). -/
def pyChoice {α : Type} [Inhabited α] (k : Nat) (l : List α) : α :=
  l.getD (k % l.length) default

/-- One iteration of the `for name in read_pair_names` loop of
`final_alignment_selection` (src/polypolish/insert_size.py:165-206) on
one read pair's two alignment lists.  `rand` is the stream of draws of the
module-global pseudorandom generator; the result is the updated pair of
lists and the rest of the stream.  `none` models a failing defensive
assertion (line 196's `assert len(good_pairs) >= 1` and line 206's
`assert False`).  The mapq assignment of lines 170-173 mutates only a
per-alignment score field (its helper `get_mapq` is absent from the
sources) and does not alter the alignment lists, so it is not modelled. -/
def finalSelectionPair (d : Distribution) (rand : List Nat)
    (l1 l2 : List SAlign) : Option ((List SAlign × List SAlign) × List Nat) :=
  let c1 := l1.length
  let c2 := l2.length
  if c1 ≤ 1 ∧ c2 ≤ 1 then
    some ((l1, l2), rand)
  else if c1 > 1 ∧ c2 = 0 then
    some (([pyChoice (rand.headD 0) l1], l2), rand.tail)
  else if c1 = 0 ∧ c2 > 1 then
    some ((l1, [pyChoice (rand.headD 0) l2]), rand.tail)
  else if c1 ≥ 1 ∧ c2 ≥ 1 ∧ c1 + c2 ≥ 3 then
    let good := goodPairs d l1 l2
    if good.isEmpty then none
    else
      let p := pyChoice (rand.headD 0) good
      some (([p.1], [p.2]), rand.tail)
  else none

/-- The whole final-selection loop, over the list of per-read-pair
alignment-list pairs, threading the pseudorandom stream through the
iterations. -/
def finalAlignmentSelection (d : Distribution) (rand : List Nat) :
    List (List SAlign × List SAlign) → Option (List (List SAlign × List SAlign))
  | [] => some []
  | (l1, l2) :: rest =>
    match finalSelectionPair d rand l1 l2 with
    | none => none
    | some (r, rand') =>
      match finalAlignmentSelection d rand' rest with
      | none => none
      | some rs => some (r :: rs)

/-- The parameter list of `final_alignment_selection`
(src/polypolish/insert_size.py:154), transcribed from its `def` line: the
selection phase receives no seed and no generator object; its tie-breaks
call `random.choice`, which draws from Python's module-global generator,
seeded once at startup by `random.seed(args.seed)` in
src/repeatish/__main__.py:34 (Polypolish's own CLI,
src/polypolish/__main__.py, has no seed option at all). -/
def finalAlignmentSelectionParams : List String :=
  ["alignments", "distribution", "read_pair_names", "read_count"]

end Polypolish

namespace Polypolish

/-! ## Theorems -/

theorem get_ref_end_foldl_general (ps : List (Nat × Char)) (s : Nat) :
    ps.foldl (fun e p => if consumesRef p.2 then e + p.1 else e) s =
      s + refConsumedSum ps := by
  induction ps generalizing s with
  | nil => simp [refConsumedSum]
  | cons p rest ih =>
    by_cases h : consumesRef p.2
    · simp [List.foldl_cons, h, ih, refConsumedSum, List.filter_cons, Nat.add_assoc]
    · simp [List.foldl_cons, h, ih, refConsumedSum, List.filter_cons]

/-- Claim C6: `get_ref_end(start, cigar)` equals `start` plus the sum of
the lengths of the M, D, N, `=` and X operations of the CIGAR only
(Insertion and clip operations contribute nothing); in particular
`get_ref_end 100 "100M" = 200` and `get_ref_end 1000 "10M3D8M4I10M" = 1031`. -/
theorem get_ref_end_spec :
    (∀ (start : Nat) (cigar : List Char),
        get_ref_end start cigar = start + refConsumedSum (findallCigar cigar)) ∧
      get_ref_end 100 "100M".data = 200 ∧
      get_ref_end 1000 "10M3D8M4I10M".data = 1031 := by
  refine ⟨fun start cigar => ?_, by decide, by decide⟩
  exact get_ref_end_foldl_general (findallCigar cigar) start

/-- Claim C1: the claim states the consensus threshold is
`max(min_depth, min_fraction × depth)`, as Polypolish's own command line
documents (`--min_depth`, `--min_fraction`,
src/polypolish/__main__.py:55-60) and passes (line 32); the source's
`polish_target_sequence` instead hard-codes `target_count = 0.5 * depth`
(src/polypolish/polish_targets.py:58) and takes no such parameters.  At
reference base A, pileup counts T×3 and A×1, depth 4: the source's rule
adopts T (status `changed`), while the claimed rule with the default
`min_depth = 5`, `min_fraction = 0.5` finds no valid group and keeps A. -/
theorem consensusPosition_threshold_divergence :
    consensusPosition [(['T'], 3), (['A'], 1)] 4 ['A'] =
      (['T'], PolishStatus.changed) ∧
    consensusPositionSpec 5 (1 / 2) [(['T'], 3), (['A'], 1)] 4 ['A'] =
      (['A'], PolishStatus.no_reads) := by
  have h1 : ((1 : ℚ) / 2) * 4 ≤ ((3 : Nat) : ℚ) := by norm_num
  have h2 : ¬ ((1 : ℚ) / 2) * 4 ≤ ((1 : Nat) : ℚ) := by norm_num
  have h3 : ¬ max ((5 : Nat) : ℚ) ((1 / 2 : ℚ) * 4) ≤ ((3 : Nat) : ℚ) := by
    rw [max_le_iff]
    norm_num
  have h4 : ¬ max ((5 : Nat) : ℚ) ((1 / 2 : ℚ) * 4) ≤ ((1 : Nat) : ℚ) := by
    rw [max_le_iff]
    norm_num
  have h0 : (0 : ℚ) < 4 := by norm_num
  constructor
  · norm_num [consensusPosition, List.filter_cons, h0, h1, h2]
    decide
  · norm_num [consensusPositionSpec, List.filter_cons, h0, h3, h4]

/-- Claim C8: with zero usable read pairs the distribution-building step
fails with a fatal, message-carrying error and never returns a
(fabricated or default) distribution: both `get_distribution`
(src/polypolish/insert_size.py:76-88, empty-sample behaviour modelled
from the spec) and `get_insert_size_thresholds`
(src/scripts/polypolish_insert_filter.py:181-189) error out on the empty
sample, the latter for every percentile setting. -/
theorem zero_pairs_is_fatal :
    get_distribution [] =
      Except.error
        "Error: no read pairs available to determine the insert size distribution" ∧
    (∀ dist, get_distribution [] ≠ Except.ok dist) ∧
    get_insert_size_thresholds [] 10 90 =
      Except.error "Error: no read pairs available to determine insert size thresholds" ∧
    (∀ lo hi thresholds,
      get_insert_size_thresholds [] lo hi ≠ Except.ok thresholds) := by
  refine ⟨rfl, ?_, by simp [get_insert_size_thresholds], ?_⟩
  · intro dist h
    simp [get_distribution] at h
  · intro lo hi thresholds h
    simp [get_insert_size_thresholds] at h

/-- Claim C9: when an alignment's optional fields carry no `NM:i:` tag its
mismatch count is set to −1 (src/polypolish/alignment.py:121-124), and
`filter_alignments` (src/polypolish/alignment.py:51-65) then keeps the
alignment whenever it starts and ends with a Match operation, for every
non-negative `max_errors` ceiling (−1 ≤ max_errors always holds): a
missing edit-distance tag silently passes the error filter. -/
theorem missing_nm_tag_passes_filter (opt_fields : List (List Char))
    (cigar : List Char) (max_errors : ℤ)
    (hno : opt_fields.all (fun p => !isNMTag p) = true)
    (hmax : 0 ≤ max_errors) :
    parse_mismatches opt_fields = some (-1) ∧
    (-1 : ℤ) ≤ max_errors ∧
    (starts_and_ends_with_match cigar = some true →
      filter_keeps cigar (-1) max_errors = some true) := by
  refine ⟨?_, by omega, ?_⟩
  · have : ∀ m, opt_fields.foldl
        (fun m p => if isNMTag p then pyInt (p.drop 5) else m) m = m := by
      intro m
      induction opt_fields with
      | nil => rfl
      | cons p rest ih =>
        simp only [List.all_cons, Bool.and_eq_true, Bool.not_eq_true'] at hno ih
        simp [List.foldl_cons, hno.1, ih hno.2]
    exact this (some (-1))
  · intro hsem
    simp [filter_keeps, hsem, Option.map, decide_eq_true (by omega : (-1 : ℤ) ≤ max_errors)]

/-- Witness for C9 at a concrete input: one non-NM optional field, CIGAR
10M, `max_errors = 0`. -/
theorem missing_nm_tag_passes_filter_witness :
    parse_mismatches ["AS:i:0".data] = some (-1) ∧
    (-1 : ℤ) ≤ 0 ∧
    (starts_and_ends_with_match "10M".data = some true →
      filter_keeps "10M".data (-1) 0 = some true) :=
  missing_nm_tag_passes_filter ["AS:i:0".data] "10M".data 0 (by decide) (by decide)

theorem trimAlignedBases_all_eq_none {α : Type} [DecidableEq α] (l : List α)
    (hne : l ≠ []) (hall : ∀ x ∈ l, x = l.getLast hne) :
    trimAlignedBases l = none := by
  have hrev : l.reverse = l.getLast hne :: l.dropLast.reverse := by
    conv_lhs => rw [← List.dropLast_append_getLast hne]
    simp
  have hdrop : (l.getLast hne :: l.dropLast.reverse).dropWhile
      (fun x => x == l.getLast hne) = [] := by
    rw [← hrev, List.dropWhile_eq_nil_iff]
    intro x hx
    have : x ∈ l := List.mem_reverse.mp hx
    simp [hall x this]
  unfold trimAlignedBases
  rw [hrev]
  split
  · rename_i heq
    exact absurd heq (by simp)
  · rename_i head rest heq
    obtain ⟨h1, h2⟩ : head = l.getLast hne ∧ rest = l.dropLast.reverse := by
      injection heq with ha hb
      exact ⟨ha.symm, hb.symm⟩
    subst h1
    subst h2
    rw [hdrop]

/-- Claim C10: the homopolymer-trimming step of `get_pileup`
(src/polypolish/polish_targets.py:146-149) is partial: an alignment all
of whose base groups equal its last base group (a read aligned entirely
within a homopolymer run) makes the trimming loop empty the list and then
index the last element of an empty list, so the alignment contributes no
pileup entries and the error branch is reachable. -/
theorem all_equal_groups_raise (ref_start : Nat) (l : List (List Char))
    (hne : l ≠ []) (hall : ∀ x ∈ l, x = l.getLast hne) :
    pileupEntries ref_start l = none := by
  rw [pileupEntries, trimAlignedBases_all_eq_none l hne hall]
  rfl

/-- Witness for C10 at a concrete input: the two-group alignment GG. -/
theorem all_equal_groups_raise_witness :
    pileupEntries 0 [['G'], ['G']] = none :=
  all_equal_groups_raise 0 [['G'], ['G']] (by decide) (by decide)

/-- Claim C4 counterexample: the claim says every random tie-break draws
from a generator "seeded by an explicit caller-supplied seed parameter
rather than implicit global state"; but the selection phase
(`final_alignment_selection`, src/polypolish/insert_size.py:154) has no
seed or generator parameter — its `random.choice` calls read the
module-global generator, which src/repeatish/__main__.py:34 seeds once
via `random.seed(args.seed)`. -/
theorem no_seed_parameter_in_selection :
    "seed" ∉ finalAlignmentSelectionParams ∧
    "generator" ∉ finalAlignmentSelectionParams ∧
    "rng" ∉ finalAlignmentSelectionParams := by
  decide

theorem dropWhile_replicate_append {α : Type} [DecidableEq α] (b : α)
    (t : List α) :
    ∀ k, (List.replicate k b ++ t).dropWhile (fun x => x == b) =
      t.dropWhile (fun x => x == b)
  | 0 => rfl
  | k + 1 => by
    rw [List.replicate_succ, List.cons_append,
      List.dropWhile_cons_of_pos (by simp)]
    exact dropWhile_replicate_append b t k

theorem trimAlignedBases_append_replicate {α : Type} [DecidableEq α]
    (l₁ : List α) (b : α) (k : Nat) (hne : l₁ ≠ [])
    (hlast : l₁.getLast hne ≠ b) (hk : 1 ≤ k) :
    trimAlignedBases (l₁ ++ List.replicate k b) = some l₁.dropLast := by
  obtain ⟨m, rfl⟩ : ∃ m, k = m + 1 := ⟨k - 1, by omega⟩
  have hl₁rev : l₁.reverse = l₁.getLast hne :: l₁.dropLast.reverse := by
    conv_lhs => rw [← List.dropLast_append_getLast hne]
    simp
  have hrev : (l₁ ++ List.replicate (m + 1) b).reverse =
      b :: (List.replicate m b ++ l₁.reverse) := by
    rw [List.reverse_append, List.reverse_replicate, List.replicate_succ,
      List.cons_append]
  have hdrop : (b :: (List.replicate m b ++ l₁.reverse)).dropWhile
      (fun x => x == b) = l₁.getLast hne :: l₁.dropLast.reverse := by
    rw [List.dropWhile_cons_of_pos (by simp), dropWhile_replicate_append,
      hl₁rev, List.dropWhile_cons_of_neg (by simp [hlast])]
  unfold trimAlignedBases
  rw [hrev]
  split
  · rename_i heq
    exact absurd heq (by simp)
  · rename_i head rest heq
    obtain ⟨h1, h2⟩ : head = b ∧ rest = List.replicate m b ++ l₁.reverse := by
      injection heq with ha hb
      exact ⟨ha.symm, hb.symm⟩
    subst h1
    subst h2
    rw [hdrop]
    simp

/-- Claim C3: before an alignment's base groups are accumulated into the
pileup, `get_pileup` (src/polypolish/polish_targets.py:146-149) drops the
trailing base-groups equal to the alignment's last group and then one
more; for an alignment of n base groups ending in a maximal run of k
identical groups, with k + 1 < n, exactly n − k − 1 position entries are
contributed. -/
theorem trimmed_contribution_count (start : Nat) (l₁ : List (List Char))
    (b : List Char) (k : Nat) (hne : l₁ ≠ []) (hlast : l₁.getLast hne ≠ b)
    (hk : 1 ≤ k) (_hn : k + 1 < (l₁ ++ List.replicate k b).length) :
    ∃ entries, pileupEntries start (l₁ ++ List.replicate k b) = some entries ∧
      entries.length + k + 1 = (l₁ ++ List.replicate k b).length := by
  have hlen1 : 1 ≤ l₁.length := List.length_pos.mpr hne
  refine ⟨l₁.dropLast.enum.map (fun p => (start + p.1, p.2)), ?_, ?_⟩
  · rw [pileupEntries, trimAlignedBases_append_replicate l₁ b k hne hlast hk]
    rfl
  · simp only [List.length_map, List.enum_length, List.length_dropLast,
      List.length_append, List.length_replicate]
    omega

/-- Witness for C3 at a concrete input: groups A, C followed by a run of
one G (n = 3, k = 1), contributing exactly one entry. -/
theorem trimmed_contribution_count_witness :
    ∃ entries,
      pileupEntries 5 ([['A'], ['C']] ++ List.replicate 1 ['G']) =
        some entries ∧
      entries.length + 1 + 1 =
        ([['A'], ['C']] ++ List.replicate 1 ['G']).length :=
  trimmed_contribution_count 5 [['A'], ['C']] ['G'] 1 (by decide) (by decide)
    (by decide) (by decide)

theorem foldl_runningMax_le_init {β : Type} (f : β → Nat) (xs : List β) :
    ∀ a : Nat, a ≤ xs.foldl (fun m p => if f p > m then f p else m) a := by
  induction xs with
  | nil => intro a; exact Nat.le_refl a
  | cons x rest ih =>
    intro a
    refine Nat.le_trans ?_ (ih (if f x > a then f x else a))
    split <;> omega

theorem foldl_runningMax_ge_mem {β : Type} (f : β → Nat) (xs : List β) :
    ∀ (a : Nat) (x : β), x ∈ xs →
      f x ≤ xs.foldl (fun m p => if f p > m then f p else m) a := by
  induction xs with
  | nil => intro a x hx; cases hx
  | cons y rest ih =>
    intro a x hx
    have hfc : (y :: rest).foldl (fun m p => if f p > m then f p else m) a =
        rest.foldl (fun m p => if f p > m then f p else m)
          (if f y > a then f y else a) := rfl
    rw [hfc]
    rcases List.mem_cons.mp hx with h | h
    · subst h
      refine Nat.le_trans ?_ (foldl_runningMax_le_init f rest _)
      split <;> omega
    · exact ih _ x h

theorem foldl_runningMax_attained {β : Type} (f : β → Nat) (xs : List β) :
    ∀ a : Nat,
      xs.foldl (fun m p => if f p > m then f p else m) a = a ∨
      ∃ x ∈ xs, f x = xs.foldl (fun m p => if f p > m then f p else m) a := by
  induction xs with
  | nil => intro a; exact Or.inl rfl
  | cons y rest ih =>
    intro a
    have hfc : (y :: rest).foldl (fun m p => if f p > m then f p else m) a =
        rest.foldl (fun m p => if f p > m then f p else m)
          (if f y > a then f y else a) := rfl
    rcases ih (if f y > a then f y else a) with h | h
    · by_cases hy : f y > a
      · exact Or.inr ⟨y, List.mem_cons_self y rest, by rw [hfc, h, if_pos hy]⟩
      · exact Or.inl (by rw [hfc, h, if_neg hy])
    · obtain ⟨x, hx, hfx⟩ := h
      exact Or.inr ⟨x, List.mem_cons_of_mem y hx, by rw [hfc]; exact hfx⟩

theorem goodPairs_ne_nil (d : Distribution) (l1 l2 : List SAlign)
    (h1 : l1 ≠ []) (h2 : l2 ≠ []) : goodPairs d l1 l2 ≠ [] := by
  obtain ⟨a1, t1, rfl⟩ := List.exists_cons_of_ne_nil h1
  obtain ⟨a2, t2, rfl⟩ := List.exists_cons_of_ne_nil h2
  have hmem : (a1, a2) ∈ allPairs (a1 :: t1) (a2 :: t2) := by
    simp [allPairs]
  have hattained : ∃ p ∈ allPairs (a1 :: t1) (a2 :: t2),
      pairScore d p = maxPairScore d (a1 :: t1) (a2 :: t2) := by
    rcases foldl_runningMax_attained (pairScore d)
        (allPairs (a1 :: t1) (a2 :: t2)) 0 with h | h
    · have hle := foldl_runningMax_ge_mem (pairScore d)
        (allPairs (a1 :: t1) (a2 :: t2)) 0 (a1, a2) hmem
      exact ⟨(a1, a2), hmem, by unfold maxPairScore; omega⟩
    · exact h
  obtain ⟨p, hp, hps⟩ := hattained
  have : p ∈ goodPairs d (a1 :: t1) (a2 :: t2) := by
    unfold goodPairs
    rw [List.mem_filter]
    exact ⟨hp, by simp [hps]⟩
  exact List.ne_nil_of_mem this

theorem selection_pair_resolves (d : Distribution) (rand : List Nat)
    (l1 l2 : List SAlign) :
    ∃ r rand', finalSelectionPair d rand l1 l2 = some (r, rand') ∧
      r.1.length ≤ 1 ∧ r.2.length ≤ 1 := by
  simp only [finalSelectionPair]
  by_cases h1 : l1.length ≤ 1 ∧ l2.length ≤ 1
  · rw [if_pos h1]
    exact ⟨(l1, l2), rand, rfl, h1.1, h1.2⟩
  · rw [if_neg h1]
    by_cases h2 : l1.length > 1 ∧ l2.length = 0
    · rw [if_pos h2]
      exact ⟨_, _, rfl, by simp, by simp [h2.2]⟩
    · rw [if_neg h2]
      by_cases h3 : l1.length = 0 ∧ l2.length > 1
      · rw [if_pos h3]
        exact ⟨_, _, rfl, by simp [h3.1], by simp⟩
      · rw [if_neg h3]
        have h4 : l1.length ≥ 1 ∧ l2.length ≥ 1 ∧
            l1.length + l2.length ≥ 3 := by omega
        rw [if_pos h4]
        have hgood : goodPairs d l1 l2 ≠ [] :=
          goodPairs_ne_nil d l1 l2
            (by intro h; rw [h] at h4; simp at h4)
            (by intro h; rw [h] at h4; simp at h4)
        rw [if_neg (by simpa [List.isEmpty_iff] using hgood)]
        exact ⟨_, _, rfl, by simp, by simp⟩

/-- Claim C2: after the final resolution round
(`final_alignment_selection`, src/polypolish/insert_size.py:154-206)
completes, every mate's alignment list has length 0 or 1, for every input
alignment set and every pseudorandom stream; in particular the loop never
hits a failing defensive assertion (`assert len(good_pairs) >= 1`,
`assert False` — modelled by the `none` result, which never occurs). -/
theorem selection_converges (d : Distribution) (rand : List Nat)
    (sets : List (List SAlign × List SAlign)) :
    ∃ sets', finalAlignmentSelection d rand sets = some sets' ∧
      ∀ p ∈ sets', p.1.length ≤ 1 ∧ p.2.length ≤ 1 := by
  induction sets generalizing rand with
  | nil => exact ⟨[], rfl, by simp⟩
  | cons q rest ih =>
    obtain ⟨l1, l2⟩ := q
    obtain ⟨r, rand', hstep, hr1, hr2⟩ := selection_pair_resolves d rand l1 l2
    obtain ⟨rs, hrs, hall⟩ := ih rand'
    refine ⟨r :: rs, ?_, ?_⟩
    · simp only [finalAlignmentSelection, hstep, hrs]
    · intro p hp
      rcases List.mem_cons.mp hp with h | h
      · rw [h]
        exact ⟨hr1, hr2⟩
      · exact hall p h

/-- Claim C4 (amended): the tie-breaks of the selection phase draw from
the module-global pseudorandom generator, seeded once at startup from the
caller-supplied `--seed` (src/repeatish/__main__.py:34 and 73); given the
seeded generator's draw stream the phase is a pure function of its input,
and on inputs that need no tie-break (every mate already has at most one
alignment) the output does not depend on the stream at all. -/
theorem selection_deterministic_modulo_draws (d : Distribution)
    (rand rand' : List Nat) (sets : List (List SAlign × List SAlign)) :
    (∀ p ∈ sets, p.1.length ≤ 1 ∧ p.2.length ≤ 1) →
    finalAlignmentSelection d rand sets =
      finalAlignmentSelection d rand' sets := by
  induction sets generalizing rand rand' with
  | nil => intro _; rfl
  | cons q rest ih =>
    intro h
    obtain ⟨l1, l2⟩ := q
    have hq := h (l1, l2) (List.mem_cons_self _ _)
    have hstep : ∀ r : List Nat,
        finalSelectionPair d r l1 l2 = some ((l1, l2), r) := by
      intro r
      simp only [finalSelectionPair]
      rw [if_pos ⟨hq.1, hq.2⟩]
    simp only [finalAlignmentSelection, hstep rand, hstep rand']
    rw [ih rand rand' (fun p hp => h p (List.mem_cons_of_mem _ hp))]

/-- Witness for the amended C4 at a concrete input: one resolved read
pair, two different pseudorandom streams, equal selection output. -/
theorem selection_deterministic_modulo_draws_witness :
    finalAlignmentSelection default [3] [([⟨0, 100⟩], [])] =
      finalAlignmentSelection default [7] [([⟨0, 100⟩], [])] :=
  selection_deterministic_modulo_draws default [3] [7] [([⟨0, 100⟩], [])]
    (by decide)

theorem expandCigarParts_eq_some (ps : List (Nat × Char))
    (h : ∀ p ∈ ps, p.2 = 'M' ∨ p.2 = 'I' ∨ p.2 = 'D') :
    expandCigarParts ps = some (expandedOf ps) := by
  induction ps with
  | nil => rfl
  | cons p rest ih =>
    have hp := h p (List.mem_cons_self _ _)
    have hcond : (p.2 == 'M' || p.2 == 'D' || p.2 == 'I') = true := by
      rcases hp with h | h | h <;> simp [h]
    obtain ⟨n, c⟩ := p
    simp only [expandCigarParts, hcond, if_true,
      ih (fun q hq => h q (List.mem_cons_of_mem _ hq)), Option.map_some]
    simp [expandedOf]

theorem mem_expandedOf {c : Char} {ps : List (Nat × Char)}
    (h : c ∈ expandedOf ps) : ∃ p ∈ ps, c = p.2 := by
  simp only [expandedOf, List.mem_flatten, List.mem_map] at h
  obtain ⟨l, ⟨p, hp, rfl⟩, hc⟩ := h
  exact ⟨p, hp, (List.eq_of_mem_replicate hc)⟩

theorem filter_replicate_length (pred : Char → Bool) (n : Nat) (c : Char) :
    ((List.replicate n c).filter pred).length = if pred c then n else 0 := by
  rw [List.filter_replicate]
  split <;> simp

theorem length_filter_expandedOf (pred : Char → Bool) (ps : List (Nat × Char)) :
    ((expandedOf ps).filter pred).length =
      (ps.map (fun p => if pred p.2 then p.1 else 0)).sum := by
  induction ps with
  | nil => rfl
  | cons p rest ih =>
    obtain ⟨n, c⟩ := p
    simp only [expandedOf, List.map_cons, List.flatten_cons,
      List.filter_append, List.length_append, List.sum_cons] at *
    rw [filter_replicate_length, ih]

theorem sum_filter_map_fst (pred : (Nat × Char) → Bool) (ps : List (Nat × Char)) :
    ((ps.filter pred).map (fun p => p.1)).sum =
      (ps.map (fun p => if pred p then p.1 else 0)).sum := by
  induction ps with
  | nil => rfl
  | cons p rest ih =>
    simp only [List.filter_cons, List.map_cons, List.sum_cons]
    by_cases hp : pred p = true
    · simp [hp, ih]
    · simp [hp, ih]

theorem countMI_expandedOf (ps : List (Nat × Char)) :
    countMI (expandedOf ps) = readConsumedSum ps := by
  rw [countMI, length_filter_expandedOf, readConsumedSum, sum_filter_map_fst]

theorem countMD_expandedOf (ps : List (Nat × Char))
    (h : ∀ p ∈ ps, p.2 = 'M' ∨ p.2 = 'I' ∨ p.2 = 'D') :
    countMD (expandedOf ps) = refConsumedSum ps := by
  rw [countMD, length_filter_expandedOf, refConsumedSum, sum_filter_map_fst]
  apply congrArg List.sum
  apply List.map_congr_left
  intro p hp
  rcases h p hp with hc | hc | hc <;> rw [hc] <;> rfl

theorem readBasesAux_spec (exp : List Char) :
    ∀ (reads : List Char) (acc : List (List Char)),
      (∀ c ∈ exp, c = 'M' ∨ c = 'I' ∨ c = 'D') →
      (exp.head? = some 'I' → acc ≠ []) →
      reads.length = countMI exp →
      (∀ c ∈ reads, c ≠ '-') →
      ∃ G, readBasesAux exp reads acc = some G ∧
        G.length = acc.length + countMD exp ∧
        G.flatten.filter (fun c => c != '-') =
          acc.reverse.flatten.filter (fun c => c != '-') ++ reads := by
  induction exp with
  | nil =>
    intro reads acc _ _ hlen _
    have hr : reads = [] := List.eq_nil_of_length_eq_zero (by simpa [countMI] using hlen)
    subst hr
    exact ⟨acc.reverse, rfl, by simp [countMD], by simp⟩
  | cons c cs ih =>
    intro reads acc hmid hhead hlen hdash
    have hmid' : ∀ x ∈ cs, x = 'M' ∨ x = 'I' ∨ x = 'D' :=
      fun x hx => hmid x (List.mem_cons_of_mem _ hx)
    rcases hmid c (List.mem_cons_self _ _) with hc | hc | hc
    · subst hc
      have hlen' : reads.length = countMI cs + 1 := by
        simp only [countMI, List.filter_cons] at hlen ⊢
        simpa [Nat.add_comm] using hlen
      obtain ⟨r, rs, rfl⟩ : ∃ r rs, reads = r :: rs := by
        cases reads with
        | nil => simp at hlen'
        | cons r rs => exact ⟨r, rs, rfl⟩
      have hr : r ≠ '-' := hdash r (List.mem_cons_self _ _)
      obtain ⟨G, hG, hGlen, hGflat⟩ := ih rs ([r] :: acc) hmid' (by simp)
        (by simpa using hlen') (fun x hx => hdash x (List.mem_cons_of_mem _ hx))
      refine ⟨G, ?_, ?_, ?_⟩
      · exact hG
      · rw [hGlen]
        simp only [countMD, List.filter_cons, List.length_cons]
        simp
        omega
      · rw [hGflat]
        simp only [List.reverse_cons, List.flatten_append, List.filter_append]
        simp [hr]
    · subst hc
      obtain ⟨g, gs, rfl⟩ : ∃ g gs, acc = g :: gs := by
        have := hhead (by rfl)
        cases acc with
        | nil => exact absurd rfl this
        | cons g gs => exact ⟨g, gs, rfl⟩
      have hlen' : reads.length = countMI cs + 1 := by
        simp only [countMI, List.filter_cons] at hlen ⊢
        simpa [Nat.add_comm] using hlen
      obtain ⟨r, rs, rfl⟩ : ∃ r rs, reads = r :: rs := by
        cases reads with
        | nil => simp at hlen'
        | cons r rs => exact ⟨r, rs, rfl⟩
      have hr : r ≠ '-' := hdash r (List.mem_cons_self _ _)
      obtain ⟨G, hG, hGlen, hGflat⟩ := ih rs ((g ++ [r]) :: gs) hmid' (by simp)
        (by simpa using hlen') (fun x hx => hdash x (List.mem_cons_of_mem _ hx))
      refine ⟨G, ?_, ?_, ?_⟩
      · exact hG
      · rw [hGlen]
        simp only [countMD, List.filter_cons, List.length_cons]
        simp
      · rw [hGflat]
        simp only [List.reverse_cons, List.flatten_append, List.filter_append]
        simp [hr]
    · subst hc
      have hlen' : reads.length = countMI cs := by
        simpa [countMI, List.filter_cons] using hlen
      obtain ⟨G, hG, hGlen, hGflat⟩ := ih reads (['-'] :: acc) hmid' (by simp)
        hlen' hdash
      refine ⟨G, ?_, ?_, ?_⟩
      · exact hG
      · rw [hGlen]
        simp only [countMD, List.filter_cons, List.length_cons]
        simp
        omega
      · rw [hGflat]
        simp only [List.reverse_cons, List.flatten_append, List.filter_append]
        simp

/-- Claim C5 (amended): for every alignment whose CIGAR consists of
Match/Insertion/Deletion operations, whose consumed read length equals
its read sequence length, and whose expanded CIGAR does not begin with an
Insertion (a leading Insertion makes the source index `read_bases[-1]` on
an empty list — see the counterexample), with a nucleotide read (no gap
character) and the matching reference slice: concatenating the emitted
base groups with the gap markers removed yields exactly the read
sequence, and the number of emitted groups equals the reference span
`ref_end − ref_start`. -/
theorem read_bases_roundtrip (cigar read_seq ref_seq : List Char)
    (ref_start : Nat)
    (hmid : ∀ p ∈ findallCigar cigar, p.2 = 'M' ∨ p.2 = 'I' ∨ p.2 = 'D')
    (hlen : readConsumedSum (findallCigar cigar) = read_seq.length)
    (hhead : (expandedOf (findallCigar cigar)).head? ≠ some 'I')
    (hdash : ∀ c ∈ read_seq, c ≠ '-')
    (href : ref_seq.length = refConsumedSum (findallCigar cigar)) :
    ∃ groups,
      get_read_bases_for_each_target_base cigar read_seq ref_seq =
        some groups ∧
      groups.flatten.filter (fun c => c != '-') = read_seq ∧
      groups.length + ref_start = get_ref_end ref_start cigar := by
  have hexp : get_expanded_cigar cigar = some (expandedOf (findallCigar cigar)) :=
    expandCigarParts_eq_some (findallCigar cigar) hmid
  have hmidexp : ∀ c ∈ expandedOf (findallCigar cigar),
      c = 'M' ∨ c = 'I' ∨ c = 'D' := by
    intro c hc
    obtain ⟨p, hp, rfl⟩ := mem_expandedOf hc
    exact hmid p hp
  obtain ⟨G, hG, hGlen, hGflat⟩ :=
    readBasesAux_spec (expandedOf (findallCigar cigar)) read_seq []
      hmidexp (fun h => absurd h hhead)
      (by rw [countMI_expandedOf]; omega) hdash
  have hGlen' : G.length = ref_seq.length := by
    rw [hGlen, countMD_expandedOf (findallCigar cigar) hmid, href]
    simp
  refine ⟨G, ?_, ?_, ?_⟩
  · rw [get_read_bases_for_each_target_base, hexp]
    simp [hG, hGlen']
  · simpa using hGflat
  · rw [hGlen, countMD_expandedOf (findallCigar cigar) hmid,
      (get_ref_end_spec.1 ref_start cigar)]
    simp
    omega

/-- Witness for the amended C5 at a concrete input: CIGAR 2M1I1M1D, read
ACGT, reference slice ACGT, reference start 7. -/
theorem read_bases_roundtrip_witness :
    ∃ groups,
      get_read_bases_for_each_target_base "2M1I1M1D".data "ACGT".data
        "ACGT".data = some groups ∧
      groups.flatten.filter (fun c => c != '-') = "ACGT".data ∧
      groups.length + 7 = get_ref_end 7 "2M1I1M1D".data :=
  read_bases_roundtrip "2M1I1M1D".data "ACGT".data "ACGT".data 7
    (by decide) (by decide) (by decide) (by decide) (by decide)

theorem get_percentile_eval (l : List ℚ) (p : ℚ) (hne : l ≠ [])
    (h0 : 0 ≤ p) (h100 : p ≤ 100) :
    ∃ hi : ((max (⌈p / 100 * l.length⌉ : ℤ) 1) - 1).toNat < l.length,
      get_percentile l p =
        some (l.get ⟨((max (⌈p / 100 * l.length⌉ : ℤ) 1) - 1).toNat, hi⟩) := by
  have hn : 0 < l.length := List.length_pos.mpr hne
  have hfr : (0 : ℚ) ≤ p / 100 * l.length := by positivity
  have hrnn : (0 : ℤ) ≤ ⌈p / 100 * l.length⌉ := Int.ceil_nonneg hfr
  have hrle : (⌈p / 100 * l.length⌉ : ℤ) ≤ l.length := by
    rw [show ((l.length : ℤ)) = ⌈(l.length : ℚ)⌉ by simp]
    apply Int.ceil_le_ceil
    calc p / 100 * l.length ≤ 1 * l.length := by
          apply mul_le_mul_of_nonneg_right _ (by positivity)
          linarith
      _ = (l.length : ℚ) := one_mul _
  have hidx : ((max (⌈p / 100 * l.length⌉ : ℤ) 1) - 1).toNat < l.length := by
    omega
  refine ⟨hidx, ?_⟩
  simp only [get_percentile]
  rw [if_neg (by simp [hne])]
  by_cases hr0 : (⌈p / 100 * l.length⌉ : ℤ) = 0
  · rw [if_pos hr0]
    have : ((max (⌈p / 100 * l.length⌉ : ℤ) 1) - 1).toNat = 0 := by omega
    rw [pyIndex, if_pos (le_refl 0)]
    simp only [this, Int.toNat_zero]
    exact List.get?_eq_get (by omega)
  · rw [if_neg hr0]
    rw [pyIndex, if_pos (by omega)]
    have : (⌈p / 100 * l.length⌉ - 1).toNat =
        ((max (⌈p / 100 * l.length⌉ : ℤ) 1) - 1).toNat := by omega
    rw [this]
    exact List.get?_eq_get hidx

theorem get_percentile_mono_aux (l : List ℚ) (p1 p2 : ℚ)
    (hs : l.Sorted (· ≤ ·)) (h0 : 0 ≤ p1) (h12 : p1 < p2) (h100 : p2 ≤ 100) :
    ∃ v1 v2, get_percentile l p1 = some v1 ∧ get_percentile l p2 = some v2 ∧
      v1 ≤ v2 := by
  rcases eq_or_ne l [] with rfl | hne
  · exact ⟨0, 0, rfl, rfl, le_refl 0⟩
  · obtain ⟨hi1, he1⟩ := get_percentile_eval l p1 hne h0 (by linarith)
    obtain ⟨hi2, he2⟩ := get_percentile_eval l p2 hne (by linarith) h100
    refine ⟨_, _, he1, he2, ?_⟩
    have hceil : (⌈p1 / 100 * l.length⌉ : ℤ) ≤ ⌈p2 / 100 * l.length⌉ := by
      apply Int.ceil_le_ceil
      apply mul_le_mul_of_nonneg_right _ (by positivity)
      linarith
    have hle : ((max (⌈p1 / 100 * l.length⌉ : ℤ) 1) - 1).toNat ≤
        ((max (⌈p2 / 100 * l.length⌉ : ℤ) 1) - 1).toNat := by omega
    exact List.Sorted.rel_get_of_le hs hle

theorem get_distribution_mono (sample : List ℚ) (dist : List (ℚ × ℚ))
    (p1 p2 : ℚ) (hok : get_distribution sample = Except.ok dist)
    (hp1 : p1 ∈ fixedPercentiles) (hp2 : p2 ∈ fixedPercentiles)
    (h12 : p1 < p2) :
    ∃ v1 v2, (p1, v1) ∈ dist ∧ (p2, v2) ∈ dist ∧ v1 ≤ v2 := by
  have hrange : ∀ p ∈ fixedPercentiles, 0 ≤ p ∧ p ≤ 100 := by
    intro p hp
    simp only [fixedPercentiles, List.mem_cons, List.not_mem_nil, or_false] at hp
    rcases hp with rfl | rfl | rfl | rfl | rfl | rfl | rfl | rfl | rfl | rfl | rfl <;>
      norm_num
  have hne : ¬ sample.isEmpty = true := by
    intro h
    rw [get_distribution, if_pos h] at hok
    cases hok
  rw [get_distribution, if_neg hne] at hok
  have hdist : dist = fixedPercentiles.map (fun p =>
      (p, (get_percentile_sorted (sample.mergeSort (fun a b => a ≤ b)) p).getD 0)) := by
    injection hok with h
    exact h.symm
  have hsorted : (sample.mergeSort (fun a b => a ≤ b)).Sorted (· ≤ ·) :=
    List.sorted_mergeSort' sample
  obtain ⟨v1, v2, he1, he2, hv⟩ :=
    get_percentile_mono_aux (sample.mergeSort (fun a b => a ≤ b)) p1 p2 hsorted
      (hrange p1 hp1).1 h12 (hrange p2 hp2).2
  refine ⟨v1, v2, ?_, ?_, hv⟩
  · rw [hdist]
    refine List.mem_map.mpr ⟨p1, hp1, ?_⟩
    rw [get_percentile_sorted, he1]
    rfl
  · rw [hdist]
    refine List.mem_map.mpr ⟨p2, hp2, ?_⟩
    rw [get_percentile_sorted, he2]
    rfl

/-- Claim C7: the nearest-rank percentile of a sorted sample is monotone
in the percentile — `get_percentile`
(src/scripts/polypolish_insert_filter.py:580-593) at p1 is at most its
value at p2 whenever 0 ≤ p1 < p2 ≤ 100 — and hence the insert-size
distribution built over the fixed percentile set
(src/polypolish/insert_size.py:76-88) is monotone in the percentile. -/
theorem percentile_monotone :
    (∀ (l : List ℚ) (p1 p2 : ℚ), l.Sorted (· ≤ ·) → 0 ≤ p1 → p1 < p2 →
      p2 ≤ 100 → ∃ v1 v2, get_percentile l p1 = some v1 ∧
        get_percentile l p2 = some v2 ∧ v1 ≤ v2) ∧
    (∀ (sample : List ℚ) (dist : List (ℚ × ℚ)) (p1 p2 : ℚ),
      get_distribution sample = Except.ok dist → p1 ∈ fixedPercentiles →
      p2 ∈ fixedPercentiles → p1 < p2 →
      ∃ v1 v2, (p1, v1) ∈ dist ∧ (p2, v2) ∈ dist ∧ v1 ≤ v2) :=
  ⟨fun l p1 p2 hs h0 h12 h100 => get_percentile_mono_aux l p1 p2 hs h0 h12 h100,
   fun sample dist p1 p2 hok hp1 hp2 h12 =>
     get_distribution_mono sample dist p1 p2 hok hp1 hp2 h12⟩

/-- Claim C5 counterexample: the CIGAR 1I1M with read AB satisfies every
hypothesis the claim states (only M/I/D operations, consumed read length
2 equal to the read length, reference slice of length 1 equal to the
reference span, a nucleotide read), yet the source crashes instead of
emitting base groups: the leading Insertion executes
`read_bases[-1] += ...` while `read_bases` is still empty, an IndexError,
so no concatenation of base groups can equal the consumed read
sequence. -/
theorem read_bases_leading_insertion_crash :
    ((findallCigar "1I1M".data).all
        (fun p => p.2 == 'M' || p.2 == 'I' || p.2 == 'D')) = true ∧
    readConsumedSum (findallCigar "1I1M".data) = "AB".data.length ∧
    "A".data.length = refConsumedSum (findallCigar "1I1M".data) ∧
    ("AB".data.all (fun c => c != '-')) = true ∧
    get_read_bases_for_each_target_base "1I1M".data "AB".data "A".data =
      none := by
  decide

end Polypolish
